import Mathlib

/-!
Verification of the TGC ingestion/RAG pipeline.

Shallow embedding of the Python sources:
* `src/ingest/chunker.py`   — text chunking with overlap (`chunk_article`, `_find_break`)
* `src/ingest/index_builder.py` — chunk ids and collection writes
* `src/scraper/sitemap.py`  — sitemap discovery and bounded traversal
* `src/scraper/parser.py`   — article field extraction and rejection rule
* `src/rag/retriever.py`    — query clamping
* `src/api.py`              — response shaping of `POST /ask`
* `scripts/run_ingest.py`   — interrupt-checkpoint save path

Python strings are modelled as `List Char`; Python `int` as `Nat`
(all the quantities involved are non-negative) except where `-1`
sentinels of `str.rfind` matter, where `Int` is used.
-/

set_option maxRecDepth 400000
set_option maxHeartbeats 1000000

namespace TGC

/-- Python `str.isspace` for the characters `str.strip()` removes
(ASCII whitespace; the sources only ever contain ASCII). -/
def pyIsSpace (c : Char) : Bool :=
  c = ' ' || c = '\t' || c = '\n' || c = '\r' || c = Char.ofNat 11 || c = Char.ofNat 12

/-- Python `s.strip()`: remove leading and trailing whitespace. -/
def pyStrip (s : List Char) : List Char :=
  ((s.dropWhile pyIsSpace).reverse.dropWhile pyIsSpace).reverse

/-- Python `s[a:b]` for `0 ≤ a ≤ b` (the only way the sources slice). -/
def pySlice (s : List Char) (a b : Nat) : List Char :=
  (s.drop a).take (b - a)

/-- Helper for `rfind2`: scan with current absolute index `i`, keeping the
last matching position in `best` (`-1` when none seen). -/
def rfind2Aux (a b : Char) : List Char → Nat → Int → Int
  | x :: y :: rest, i, best =>
      rfind2Aux a b (y :: rest) (i + 1) (if x = a && y = b then (i : Int) else best)
  | _, _, best => best

/-- Python `s.rfind(p)` for a two-character pattern `p = ⟨a, b⟩`:
index of the rightmost occurrence, `-1` if absent. -/
def rfind2 (s : List Char) (a b : Char) : Int :=
  rfind2Aux a b s 0 (-1)

/-! Constants of `src/ingest/chunker.py`. -/

def CHUNK_CHARS : Nat := 2400
def OVERLAP_CHARS : Nat := 400
def SLIDE_CHARS : Nat := CHUNK_CHARS - OVERLAP_CHARS
def MIN_ARTICLE_CHARS : Nat := 800

/-- `chunker._find_break(text, start, end)`: find a good sentence boundary
between `start` and `e`.  Mirrors the Python source line by line. -/
def findBreak (text : List Char) (start e : Nat) : Nat :=
  let segment := pySlice text start e
  let lastPeriod := rfind2 segment '.' ' '
  let lastNewline := rfind2 segment '\n' '\n'
  let breakRel := max lastPeriod lastNewline
  if breakRel > ((CHUNK_CHARS : Int) / 2) then start + breakRel.toNat + 1 else e

/-- `parser.Article` (only the fields; `sect` embeds the Python field
`section`, which is a keyword in Lean). -/
structure Article where
  url : List Char
  title : List Char
  author : List Char
  sect : List Char
  date : List Char
  content : List Char
  deriving Repr, DecidableEq

/-- `chunker.Chunk`. -/
structure Chunk where
  text : List Char
  title : List Char
  author : List Char
  sect : List Char
  date : List Char
  source_url : List Char
  chunk_index : Nat
  deriving Repr, DecidableEq

/-- The next value of `start` after one iteration of the `while` loop of
`chunk_article` (line 84 of `chunker.py`). -/
def nextStart (content : List Char) (start : Nat) : Nat :=
  if findBreak content start (min (start + CHUNK_CHARS) content.length) < content.length
  then findBreak content start (min (start + CHUNK_CHARS) content.length) - OVERLAP_CHARS
  else content.length

/-- Any result of `rfind2Aux` is `-1` or a position at which a
two-character pattern fits inside the scanned list. -/
theorem rfind2Aux_bound (a b : Char) :
    ∀ (l : List Char) (i : Nat) (best : Int),
      (best = -1 ∨ (0 ≤ best ∧ best.toNat + 2 ≤ i + l.length)) →
      (rfind2Aux a b l i best = -1 ∨
        (0 ≤ rfind2Aux a b l i best ∧ (rfind2Aux a b l i best).toNat + 2 ≤ i + l.length)) := by
  intro l
  induction l with
  | nil => intro i best h; simpa [rfind2Aux] using h
  | cons x tail ih =>
    cases tail with
    | nil => intro i best h; simpa [rfind2Aux] using h
    | cons y rest =>
      intro i best h
      rw [rfind2Aux]
      have hlen : (i + 1) + (y :: rest).length = i + (x :: y :: rest).length := by
        simp [List.length_cons]; omega
      have := ih (i + 1) (if x = a && y = b then (i : Int) else best) ?_
      · rw [hlen] at this; exact this
      · by_cases hxy : x = a && y = b
        · simp only [hxy, if_pos]
          right
          constructor
          · exact Int.ofNat_nonneg i
          · simp [List.length_cons]; omega
        · simp only [hxy, if_neg, Bool.not_eq_true]
          rcases h with h | ⟨h0, h2⟩
          · simp [hxy, h]
          · right
            refine ⟨h0, ?_⟩
            simp only [List.length_cons] at h2 ⊢
            omega

/-- `rfind2` returns `-1` or a position where the pattern fits. -/
theorem rfind2_bound (s : List Char) (a b : Char) :
    rfind2 s a b = -1 ∨ (0 ≤ rfind2 s a b ∧ (rfind2 s a b).toNat + 2 ≤ s.length) := by
  have := rfind2Aux_bound a b s 0 (-1) (Or.inl rfl)
  simpa [rfind2] using this

theorem length_pySlice (s : List Char) (a b : Nat) :
    (pySlice s a b).length = min (b - a) (s.length - a) := by
  simp [pySlice]

/-- `_find_break` either returns the window end, or cuts at a found
boundary, which lies strictly beyond the window midpoint and strictly
before the window end. -/
theorem findBreak_spec (t : List Char) (s e : Nat) (hse : s ≤ e) :
    findBreak t s e = e ∨
      (s + 1202 ≤ findBreak t s e ∧ findBreak t s e < e ∧ findBreak t s e < t.length) := by
  unfold findBreak
  set segment := pySlice t s e with hseg
  set p := rfind2 segment '.' ' ' with hp
  set q := rfind2 segment '\n' '\n' with hq
  by_cases hbr : max p q > ((CHUNK_CHARS : Int) / 2)
  · right
    rw [if_pos hbr]
    have h1200 : ((CHUNK_CHARS : Int) / 2) = 1200 := by norm_num [CHUNK_CHARS]
    rw [h1200] at hbr
    have hb : (0 ≤ max p q ∧ (max p q).toNat + 2 ≤ segment.length) := by
      rcases max_choice p q with hm | hm
      · rw [hm]
        rcases rfind2_bound segment '.' ' ' with h | h
        · rw [← hp] at h; rw [hm, h] at hbr; omega
        · rw [← hp] at h; exact h
      · rw [hm]
        rcases rfind2_bound segment '\n' '\n' with h | h
        · rw [← hq] at h; rw [hm, h] at hbr; omega
        · rw [← hq] at h; exact h
    have hlen : segment.length = min (e - s) (t.length - s) := by
      rw [hseg]; exact length_pySlice t s e
    have htn : 1201 ≤ (max p q).toNat := by omega
    refine ⟨by omega, ?_, ?_⟩
    · have : (max p q).toNat + 2 ≤ e - s := by omega
      omega
    · have : (max p q).toNat + 2 ≤ t.length - s := by omega
      omega
  · left
    rw [if_neg hbr]

/-- Progress of the chunking loop: the next window start strictly
exceeds the current one. -/
theorem nextStart_progress (content : List Char) (start : Nat)
    (h : start < content.length) : start < nextStart content start := by
  unfold nextStart
  have hse : start ≤ min (start + CHUNK_CHARS) content.length := by
    have h1 : start ≤ start + CHUNK_CHARS := Nat.le_add_right _ _
    have h2 : start ≤ content.length := Nat.le_of_lt h
    exact le_min h1 h2
  rcases findBreak_spec content start (min (start + CHUNK_CHARS) content.length) hse
    with hfb | ⟨hfb1, hfb2, hfb3⟩
  · rw [hfb]
    by_cases hel : min (start + CHUNK_CHARS) content.length < content.length
    · rw [if_pos hel]
      have he : min (start + CHUNK_CHARS) content.length = start + CHUNK_CHARS := by omega
      rw [he]
      simp [CHUNK_CHARS, OVERLAP_CHARS]
    · rw [if_neg hel]; exact h
  · rw [if_pos hfb3]
    simp only [OVERLAP_CHARS]
    omega

/-- The spans `(start, break_at)` produced by the `while` loop of
`chunk_article`, in order. -/
def spanLoop (content : List Char) (start : Nat) : List (Nat × Nat) :=
  if h : start < content.length then
    let e := min (start + CHUNK_CHARS) content.length
    let breakAt := findBreak content start e
    (start, breakAt) :: spanLoop content (if breakAt < content.length then breakAt - OVERLAP_CHARS else content.length)
  else []
termination_by content.length - start
decreasing_by
  simp only [dite_eq_ite]
  have hprog := nextStart_progress content start h
  unfold nextStart at hprog
  omega

/-- The `while` loop of `chunk_article` (lines 71–84 of `chunker.py`):
emit the stripped window slice as a chunk when non-empty, advance the
window, increment the index only for emitted chunks. -/
def chunkLoop (content title author sect date url : List Char) (start idx : Nat) : List Chunk :=
  if h : start < content.length then
    let e := min (start + CHUNK_CHARS) content.length
    let breakAt := findBreak content start e
    let text := pyStrip (pySlice content start breakAt)
    let next := if breakAt < content.length then breakAt - OVERLAP_CHARS else content.length
    if text.isEmpty then
      chunkLoop content title author sect date url next idx
    else
      ⟨text, title, author, sect, date, url, idx⟩ ::
        chunkLoop content title author sect date url next (idx + 1)
  else []
termination_by content.length - start
decreasing_by
  all_goals
    simp only [dite_eq_ite]
    have hprog := nextStart_progress content start h
    unfold nextStart at hprog
    omega

/-- `chunker.chunk_article`. -/
def chunkArticle (article : Article) : List Chunk :=
  let content := pyStrip article.content
  if content.isEmpty then []
  else if content.length < MIN_ARTICLE_CHARS then
    [⟨content, article.title, article.author, article.sect, article.date, article.url, 0⟩]
  else
    chunkLoop content article.title article.author article.sect article.date article.url 0 0

theorem pySlice_drop (content : List Char) (s b k : Nat) :
    (pySlice content s b).drop k = pySlice content (s + k) b := by
  simp only [pySlice]
  rw [List.drop_take, List.drop_drop]
  congr 1
  omega

theorem pySlice_append_drop (content : List Char) (s b : Nat) (hsb : s ≤ b) :
    pySlice content s b ++ content.drop b = content.drop s := by
  have h1 : content.drop b = (content.drop s).drop (b - s) := by
    rw [List.drop_drop]
    congr 1
    omega
  rw [h1, pySlice]
  exact List.take_append_drop _ _

theorem pySlice_full (content : List Char) (s : Nat) :
    pySlice content s content.length = content.drop s := by
  apply List.take_of_length_le
  simp

/-- The tail part of a collapsed concatenation: every slice with its
overlap prefix removed, joined in order. -/
def joinDrop (content : List Char) (spans : List (Nat × Nat)) : List Char :=
  (spans.map (fun p => (pySlice content p.1 p.2).drop OVERLAP_CHARS)).flatten

/-- Modelled from the spec: "concatenating the chunk texts with the
overlapping regions collapsed" — the first text, then every later text
with its `OVERLAP_CHARS`-character overlap prefix removed. -/
def collapse400 : List (List Char) → List Char
  | [] => []
  | t :: ts => t ++ (ts.map (fun u => u.drop OVERLAP_CHARS)).flatten

theorem spanLoop_pos (content : List Char) (start : Nat) (h : start < content.length) :
    spanLoop content start =
      (start, findBreak content start (min (start + CHUNK_CHARS) content.length)) ::
        spanLoop content (nextStart content start) := by
  rw [spanLoop, dif_pos h]
  rfl

theorem spanLoop_neg (content : List Char) (start : Nat) (h : ¬ start < content.length) :
    spanLoop content start = [] := by
  rw [spanLoop, dif_neg h]

theorem chunkLoop_pos (content t a s d u : List Char) (start idx : Nat)
    (h : start < content.length) :
    chunkLoop content t a s d u start idx =
      if (pyStrip (pySlice content start
            (findBreak content start (min (start + CHUNK_CHARS) content.length)))).isEmpty
      then chunkLoop content t a s d u (nextStart content start) idx
      else ⟨pyStrip (pySlice content start
              (findBreak content start (min (start + CHUNK_CHARS) content.length))),
            t, a, s, d, u, idx⟩ ::
            chunkLoop content t a s d u (nextStart content start) (idx + 1) := by
  rw [chunkLoop, dif_pos h]
  rfl

theorem chunkLoop_neg (content t a s d u : List Char) (start idx : Nat)
    (h : ¬ start < content.length) :
    chunkLoop content t a s d u start idx = [] := by
  rw [chunkLoop, dif_neg h]

/-- Bounds on the cut position inside one loop iteration. -/
theorem findBreak_window (content : List Char) (start : Nat) (h : start < content.length) :
    findBreak content start (min (start + CHUNK_CHARS) content.length) ≤ content.length ∧
      (findBreak content start (min (start + CHUNK_CHARS) content.length) < content.length →
        start + OVERLAP_CHARS < findBreak content start (min (start + CHUNK_CHARS) content.length)) := by
  have hse : start ≤ min (start + CHUNK_CHARS) content.length :=
    le_min (Nat.le_add_right _ _) (Nat.le_of_lt h)
  rcases findBreak_spec content start (min (start + CHUNK_CHARS) content.length) hse
    with hfb | ⟨h1, h2, h3⟩
  · rw [hfb]
    refine ⟨min_le_right _ _, fun hlt => ?_⟩
    have he : min (start + CHUNK_CHARS) content.length = start + CHUNK_CHARS := by omega
    rw [he]
    simp [CHUNK_CHARS, OVERLAP_CHARS]
  · exact ⟨Nat.le_of_lt h3, fun _ => by simp only [OVERLAP_CHARS]; omega⟩

theorem spanLoop_joinDrop_aux (content : List Char) :
    ∀ (fuel start : Nat), content.length - start ≤ fuel →
      joinDrop content (spanLoop content start) = content.drop (start + OVERLAP_CHARS) := by
  intro fuel
  induction fuel with
  | zero =>
    intro start hf
    rw [spanLoop_neg content start (by omega)]
    simp only [joinDrop, List.map_nil, List.flatten_nil]
    exact (List.drop_eq_nil_of_le (by simp only [OVERLAP_CHARS]; omega)).symm
  | succ fuel ih =>
    intro start hf
    by_cases h : start < content.length
    · rw [spanLoop_pos content start h]
      obtain ⟨hble, hblt⟩ := findBreak_window content start h
      set b := findBreak content start (min (start + CHUNK_CHARS) content.length) with hbdef
      simp only [joinDrop, List.map_cons, List.flatten_cons]
      by_cases hlt : b < content.length
      · have hov : start + OVERLAP_CHARS < b := hblt hlt
        have hnext : nextStart content start = b - OVERLAP_CHARS := by
          unfold nextStart
          rw [← hbdef, if_pos hlt]
        rw [hnext]
        have hrec := ih (b - OVERLAP_CHARS) (by simp only [OVERLAP_CHARS] at hov ⊢; omega)
        simp only [joinDrop] at hrec
        rw [hrec]
        have hback : b - OVERLAP_CHARS + OVERLAP_CHARS = b := by
          simp only [OVERLAP_CHARS] at hov ⊢; omega
        rw [hback, pySlice_drop]
        exact pySlice_append_drop content (start + OVERLAP_CHARS) b (Nat.le_of_lt hov)
      · have hbeq : b = content.length := by omega
        have hnext : nextStart content start = content.length := by
          unfold nextStart
          rw [← hbdef, if_neg hlt]
        rw [hnext, spanLoop_neg content content.length (by omega)]
        simp only [List.map_nil, List.flatten_nil, List.append_nil]
        rw [hbeq, pySlice_full, List.drop_drop]
    · rw [spanLoop_neg content start h]
      simp only [joinDrop, List.map_nil, List.flatten_nil]
      exact (List.drop_eq_nil_of_le (by simp only [OVERLAP_CHARS]; omega)).symm

theorem spanLoop_joinDrop (content : List Char) (start : Nat) :
    joinDrop content (spanLoop content start) = content.drop (start + OVERLAP_CHARS) :=
  spanLoop_joinDrop_aux content (content.length - start) start le_rfl

/-- Collapsing the raw (unstripped) window slices of the loop
reconstructs the content from `start` on. -/
theorem spanLoop_collapse (content : List Char) (start : Nat) (h : start < content.length) :
    collapse400 ((spanLoop content start).map (fun p => pySlice content p.1 p.2)) =
      content.drop start := by
  rw [spanLoop_pos content start h]
  obtain ⟨hble, hblt⟩ := findBreak_window content start h
  set b := findBreak content start (min (start + CHUNK_CHARS) content.length) with hbdef
  simp only [List.map_cons, collapse400, List.map_map]
  have hjoin :
      (List.map ((fun u => u.drop OVERLAP_CHARS) ∘ fun p => pySlice content p.1 p.2)
        (spanLoop content (nextStart content start))).flatten =
      joinDrop content (spanLoop content (nextStart content start)) := rfl
  rw [hjoin, spanLoop_joinDrop]
  by_cases hlt : b < content.length
  · have hov : start + OVERLAP_CHARS < b := hblt hlt
    have hnext : nextStart content start = b - OVERLAP_CHARS := by
      unfold nextStart
      rw [← hbdef, if_pos hlt]
    rw [hnext]
    have hback : b - OVERLAP_CHARS + OVERLAP_CHARS = b := by
      simp only [OVERLAP_CHARS] at hov ⊢; omega
    rw [hback]
    exact pySlice_append_drop content start b (by omega)
  · have hbeq : b = content.length := by omega
    have hnext : nextStart content start = content.length := by
      unfold nextStart
      rw [← hbdef, if_neg hlt]
    rw [hnext, hbeq, pySlice_full]
    have : content.drop (content.length + OVERLAP_CHARS) = [] :=
      List.drop_eq_nil_of_le (by omega)
    rw [this, List.append_nil]

theorem chunkLoop_texts_aux (content t a s d u : List Char) :
    ∀ (fuel start idx : Nat), content.length - start ≤ fuel →
      (chunkLoop content t a s d u start idx).map Chunk.text =
        ((spanLoop content start).map (fun p => pyStrip (pySlice content p.1 p.2))).filter
          (fun x => !x.isEmpty) := by
  intro fuel
  induction fuel with
  | zero =>
    intro start idx hf
    rw [chunkLoop_neg content t a s d u start idx (by omega), spanLoop_neg content start (by omega)]
    simp
  | succ fuel ih =>
    intro start idx hf
    by_cases h : start < content.length
    · rw [chunkLoop_pos content t a s d u start idx h, spanLoop_pos content start h]
      set b := findBreak content start (min (start + CHUNK_CHARS) content.length) with hbdef
      have hfuel : content.length - nextStart content start ≤ fuel := by
        have := nextStart_progress content start h
        omega
      simp only [List.map_cons, List.filter_cons]
      by_cases he : (pyStrip (pySlice content start b)).isEmpty = true
      · rw [if_pos he, ih (nextStart content start) idx hfuel]
        simp [he]
      · rw [if_neg he, List.map_cons, ih (nextStart content start) (idx + 1) hfuel]
        simp [he]
    · rw [chunkLoop_neg content t a s d u start idx h, spanLoop_neg content start h]
      simp

theorem chunkLoop_indices_aux (content t a s d u : List Char) :
    ∀ (fuel start idx : Nat), content.length - start ≤ fuel →
      (chunkLoop content t a s d u start idx).map Chunk.chunk_index =
        List.range' idx (chunkLoop content t a s d u start idx).length := by
  intro fuel
  induction fuel with
  | zero =>
    intro start idx hf
    rw [chunkLoop_neg content t a s d u start idx (by omega)]
    simp
  | succ fuel ih =>
    intro start idx hf
    by_cases h : start < content.length
    · rw [chunkLoop_pos content t a s d u start idx h]
      set b := findBreak content start (min (start + CHUNK_CHARS) content.length) with hbdef
      have hfuel : content.length - nextStart content start ≤ fuel := by
        have := nextStart_progress content start h
        omega
      by_cases he : (pyStrip (pySlice content start b)).isEmpty = true
      · rw [if_pos he]
        exact ih (nextStart content start) idx hfuel
      · rw [if_neg he]
        simp only [List.map_cons, List.length_cons, List.range'_succ]
        rw [ih (nextStart content start) (idx + 1) hfuel]
    · rw [chunkLoop_neg content t a s d u start idx h]
      simp

/-- C5: for non-empty trimmed content shorter than `MIN_ARTICLE_CHARS`,
`chunk_article` returns exactly one chunk with index `0` and text equal to
the trimmed content; for empty trimmed content it returns no chunks. -/
theorem chunk_short_article (a : Article) :
    (pyStrip a.content = [] → chunkArticle a = []) ∧
    (pyStrip a.content ≠ [] → (pyStrip a.content).length < MIN_ARTICLE_CHARS →
      chunkArticle a = [⟨pyStrip a.content, a.title, a.author, a.sect, a.date, a.url, 0⟩]) := by
  constructor
  · intro h
    simp [chunkArticle, h]
  · intro h1 h2
    simp [chunkArticle, List.isEmpty_iff, h1, h2]

def shortArt : Article := ⟨"u".data, "t".data, "a".data, "s".data, "d".data, "ab".data⟩

theorem chunk_short_article_witness :
    pyStrip shortArt.content ≠ [] ∧ (pyStrip shortArt.content).length < MIN_ARTICLE_CHARS ∧
    chunkArticle shortArt =
      [⟨pyStrip shortArt.content, shortArt.title, shortArt.author, shortArt.sect,
        shortArt.date, shortArt.url, 0⟩] :=
  ⟨by decide, by decide, (chunk_short_article shortArt).2 (by decide) (by decide)⟩

/-- C10: at every reachable loop state (window of more than
`OVERLAP_CHARS` remaining characters), the cut position exceeds the window
start by more than the overlap, the next start strictly increases, and the
remaining length strictly decreases — the loop terminates. -/
theorem chunk_loop_termination (content : List Char) (start : Nat)
    (h : start + OVERLAP_CHARS < content.length) :
    start + OVERLAP_CHARS < findBreak content start (min (start + CHUNK_CHARS) content.length) ∧
    start < nextStart content start ∧
    content.length - nextStart content start < content.length - start := by
  have hov : OVERLAP_CHARS = 400 := rfl
  have hlt : start < content.length := by omega
  have hprog := nextStart_progress content start hlt
  refine ⟨?_, hprog, by omega⟩
  rcases findBreak_spec content start (min (start + CHUNK_CHARS) content.length)
      (le_min (Nat.le_add_right _ _) (Nat.le_of_lt hlt)) with hfb | ⟨h1, _, _⟩
  · rw [hfb]
    apply lt_min
    · simp only [CHUNK_CHARS, hov]
      omega
    · exact h
  · omega

theorem chunk_loop_termination_witness :
    0 + OVERLAP_CHARS < (List.replicate 900 'a').length ∧
    (0 + OVERLAP_CHARS <
        findBreak (List.replicate 900 'a') 0 (min (0 + CHUNK_CHARS) (List.replicate 900 'a').length) ∧
      0 < nextStart (List.replicate 900 'a') 0 ∧
      (List.replicate 900 'a').length - nextStart (List.replicate 900 'a') 0 <
        (List.replicate 900 'a').length - 0) :=
  ⟨by decide, chunk_loop_termination (List.replicate 900 'a') 0 (by decide)⟩

/-- Fuel-indexed mirror of `chunkLoop`, structurally recursive so that the
kernel can evaluate it on concrete inputs; agrees with `chunkLoop` when the
fuel covers the remaining length. -/
def chunkLoopFuel (content t a s d u : List Char) : Nat → Nat → Nat → List Chunk
  | 0, _, _ => []
  | fuel + 1, start, idx =>
    if start < content.length then
      let breakAt := findBreak content start (min (start + CHUNK_CHARS) content.length)
      let text := pyStrip (pySlice content start breakAt)
      let next := if breakAt < content.length then breakAt - OVERLAP_CHARS else content.length
      if text.isEmpty then
        chunkLoopFuel content t a s d u fuel next idx
      else
        ⟨text, t, a, s, d, u, idx⟩ :: chunkLoopFuel content t a s d u fuel next (idx + 1)
    else []

theorem chunkLoop_eq_fuel (content t a s d u : List Char) :
    ∀ (fuel start idx : Nat), content.length - start ≤ fuel →
      chunkLoop content t a s d u start idx = chunkLoopFuel content t a s d u fuel start idx := by
  intro fuel
  induction fuel with
  | zero =>
    intro start idx hf
    rw [chunkLoop_neg content t a s d u start idx (by omega)]
    rfl
  | succ fuel ih =>
    intro start idx hf
    by_cases h : start < content.length
    · rw [chunkLoop_pos content t a s d u start idx h]
      have hfuel : content.length - nextStart content start ≤ fuel := by
        have := nextStart_progress content start h
        omega
      have hbody : chunkLoopFuel content t a s d u (fuel + 1) start idx =
          if (pyStrip (pySlice content start
              (findBreak content start (min (start + CHUNK_CHARS) content.length)))).isEmpty
          then chunkLoopFuel content t a s d u fuel (nextStart content start) idx
          else ⟨pyStrip (pySlice content start
                (findBreak content start (min (start + CHUNK_CHARS) content.length))),
              t, a, s, d, u, idx⟩ ::
              chunkLoopFuel content t a s d u fuel (nextStart content start) (idx + 1) := by
        rw [chunkLoopFuel, if_pos h]
        rfl
      rw [hbody]
      by_cases he : (pyStrip (pySlice content start
          (findBreak content start (min (start + CHUNK_CHARS) content.length)))).isEmpty = true
      · rw [if_pos he, if_pos he]
        exact ih (nextStart content start) idx hfuel
      · rw [if_neg he, if_neg he, ih (nextStart content start) (idx + 1) hfuel]
    · rw [chunkLoop_neg content t a s d u start idx h, chunkLoopFuel, if_neg h]

/-- An article on which the literal reconstruction claim fails: the second
window slice begins with a space that `strip()` removes, so collapsing the
emitted chunk texts loses that character. -/
def cexArticle : Article :=
  ⟨"https://x/a".data, "T".data, "A".data, "S".data, "D".data,
   List.replicate 802 'a' ++ [' '] ++ List.replicate 398 'a' ++ ['.', ' '] ++ List.replicate 200 'b'⟩

/-- C1 (counterexample): for `cexArticle` (trimmed length 1403 ≥ 800) the
concatenation of the produced chunk texts with the overlapping regions
collapsed does *not* reproduce the trimmed content. -/
theorem chunk_reconstruction_cex :
    MIN_ARTICLE_CHARS ≤ (pyStrip cexArticle.content).length ∧
    collapse400 ((chunkArticle cexArticle).map Chunk.text) ≠ pyStrip cexArticle.content := by
  constructor
  · decide
  · have hc : chunkArticle cexArticle =
        chunkLoopFuel (pyStrip cexArticle.content) cexArticle.title cexArticle.author
          cexArticle.sect cexArticle.date cexArticle.url 1403 0 0 := by
      simp only [chunkArticle]
      rw [if_neg (by decide), if_neg (by decide)]
      exact chunkLoop_eq_fuel _ _ _ _ _ _ 1403 0 0 (by decide)
    rw [hc]
    intro heq
    have hlen := congrArg List.length heq
    have h1 : (collapse400 ((chunkLoopFuel (pyStrip cexArticle.content) cexArticle.title
        cexArticle.author cexArticle.sect cexArticle.date cexArticle.url 1403 0 0).map
          Chunk.text)).length = 1402 := by decide
    have h2 : (pyStrip cexArticle.content).length = 1403 := by decide
    rw [h1, h2] at hlen
    exact absurd hlen (by decide)

/-- C1 (amended): for an article with trimmed content of length at least
`MIN_ARTICLE_CHARS`, the chunk indices are contiguous from 0; the chunk
texts are exactly the whitespace-stripped window slices of the loop (empty
ones dropped); and collapsing the *raw* (unstripped) window slices
reproduces the trimmed content exactly. -/
theorem chunk_reconstruction (a : Article)
    (h : MIN_ARTICLE_CHARS ≤ (pyStrip a.content).length) :
    (chunkArticle a).map Chunk.chunk_index = List.range (chunkArticle a).length ∧
    (chunkArticle a).map Chunk.text =
      ((spanLoop (pyStrip a.content) 0).map
        (fun p => pyStrip (pySlice (pyStrip a.content) p.1 p.2))).filter (fun x => !x.isEmpty) ∧
    collapse400 ((spanLoop (pyStrip a.content) 0).map
        (fun p => pySlice (pyStrip a.content) p.1 p.2)) =
      pyStrip a.content := by
  have hmin : MIN_ARTICLE_CHARS = 800 := rfl
  have hne : ¬ (pyStrip a.content).isEmpty = true := by
    rw [List.isEmpty_iff_length_eq_zero]
    omega
  have hlen : ¬ (pyStrip a.content).length < MIN_ARTICLE_CHARS := by omega
  have hunfold : chunkArticle a =
      chunkLoop (pyStrip a.content) a.title a.author a.sect a.date a.url 0 0 := by
    simp only [chunkArticle]
    rw [if_neg hne, if_neg hlen]
  refine ⟨?_, ?_, ?_⟩
  · rw [hunfold]
    have := chunkLoop_indices_aux (pyStrip a.content) a.title a.author a.sect a.date a.url
      (pyStrip a.content).length 0 0 (by omega)
    rw [this, List.range_eq_range']
  · rw [hunfold]
    exact chunkLoop_texts_aux (pyStrip a.content) a.title a.author a.sect a.date a.url
      (pyStrip a.content).length 0 0 (by omega)
  · exact spanLoop_collapse (pyStrip a.content) 0 (by omega)

def wideArt : Article :=
  ⟨"u".data, "t".data, "a".data, "s".data, "d".data, List.replicate 900 'a'⟩

theorem chunk_reconstruction_witness :
    MIN_ARTICLE_CHARS ≤ (pyStrip wideArt.content).length ∧
    ((chunkArticle wideArt).map Chunk.chunk_index = List.range (chunkArticle wideArt).length ∧
     (chunkArticle wideArt).map Chunk.text =
       ((spanLoop (pyStrip wideArt.content) 0).map
         (fun p => pyStrip (pySlice (pyStrip wideArt.content) p.1 p.2))).filter
           (fun x => !x.isEmpty) ∧
     collapse400 ((spanLoop (pyStrip wideArt.content) 0).map
         (fun p => pySlice (pyStrip wideArt.content) p.1 p.2)) =
       pyStrip wideArt.content) :=
  ⟨by decide, chunk_reconstruction wideArt (by decide)⟩

/-! ### `src/ingest/index_builder.py` and the interrupt-save path -/

/-- Decimal digit character (`'0'` + d). -/
def digitChar (d : Nat) : Char := Char.ofNat (48 + d)

/-- Fuel-indexed decimal rendering (structural, so the kernel can
evaluate it); the fuel `n + 1` always suffices. -/
def natDecimalAux : Nat → Nat → List Char
  | 0, _ => []
  | fuel + 1, n => if n < 10 then [digitChar n] else natDecimalAux fuel (n / 10) ++ [digitChar (n % 10)]

/-- Python `str(i)` for a non-negative `int`. -/
def natDecimal (n : Nat) : List Char := natDecimalAux (n + 1) n

/-- Read a decimal digit string back as a number. -/
def parseDecimal (l : List Char) : Nat := l.foldl (fun a c => 10 * a + (c.toNat - 48)) 0

theorem toNat_digitChar (d : Nat) (h : d < 10) : (digitChar d).toNat = 48 + d := by
  interval_cases d <;> decide

theorem parseDecimal_append_digit (l : List Char) (c : Char) :
    parseDecimal (l ++ [c]) = 10 * parseDecimal l + (c.toNat - 48) := by
  simp [parseDecimal, List.foldl_append]

theorem parseDecimal_natDecimalAux :
    ∀ fuel n, n < fuel → parseDecimal (natDecimalAux fuel n) = n := by
  intro fuel
  induction fuel with
  | zero => intro n h; omega
  | succ fuel ih =>
    intro n h
    rw [natDecimalAux]
    by_cases h10 : n < 10
    · rw [if_pos h10]
      show 10 * 0 + ((digitChar n).toNat - 48) = n
      rw [toNat_digitChar n h10]
      omega
    · rw [if_neg h10, parseDecimal_append_digit, ih (n / 10) (by omega),
        toNat_digitChar (n % 10) (Nat.mod_lt n (by norm_num))]
      omega

theorem natDecimal_inj (a b : Nat) (h : natDecimal a = natDecimal b) : a = b := by
  have ha : parseDecimal (natDecimal a) = a :=
    parseDecimal_natDecimalAux (a + 1) a (by omega)
  have hb : parseDecimal (natDecimal b) = b :=
    parseDecimal_natDecimalAux (b + 1) b (by omega)
  have hp := congrArg parseDecimal h
  rw [ha, hb] at hp
  exact hp

/-- `index_builder._chunk_id(source_url, chunk_index)`:
`f"{h}_{chunk_index}"` where `h = hashlib.sha256(source_url.encode()).hexdigest()[:12]`.
The 12-hex-character digest is an external library function of the URL
alone, taken here as the parameter `sha256hex12`; everything proved about
`chunkId` holds for every such function, in particular for SHA-256. -/
def chunkId (sha256hex12 : List Char → List Char) (source_url : List Char)
    (chunk_index : Nat) : List Char :=
  sha256hex12 source_url ++ '_' :: natDecimal chunk_index

/-- C7: for a fixed URL, the chunk ID derivation is a pure function
(repeated derivations coincide) and is injective in the chunk index. -/
theorem chunk_id_deterministic (sha : List Char → List Char) (url : List Char) (i j : Nat) :
    chunkId sha url i = chunkId sha url i ∧
    (i ≠ j → chunkId sha url i ≠ chunkId sha url j) := by
  refine ⟨rfl, fun hij heq => hij ?_⟩
  have h1 : ('_' :: natDecimal i) = ('_' :: natDecimal j) :=
    List.append_cancel_left heq
  have h2 : natDecimal i = natDecimal j := by injection h1
  exact natDecimal_inj i j h2

theorem chunk_id_deterministic_witness :
    chunkId (fun _ => "abcdef012345".data) "https://x/a".data 0 ≠
      chunkId (fun _ => "abcdef012345".data) "https://x/a".data 1 :=
  (chunk_id_deterministic (fun _ => "abcdef012345".data) "https://x/a".data 0 1).2 (by decide)

/-- A persisted collection, modelled as its `(id, document)` entries in
insertion order (embedding vectors and metadata do not affect any claim
verified here). -/
abbrev Collection := List (List Char × List Char)

def CHROMA_ADD_BATCH_SIZE : Nat := 5000

/-- The entries one `collection.add(ids, …, documents, …)` call writes for
a list of chunks (ids from `_chunk_id`, documents from the chunk texts). -/
def chunkEntries (sha : List Char → List Char) (chunks : List Chunk) : Collection :=
  chunks.map (fun c => (chunkId sha c.source_url c.chunk_index, c.text))

/-- `IndexBuilder.add_chunks`: append entries batch by batch
(`CHROMA_ADD_BATCH_SIZE` at a time) to the collection. -/
def addChunks (sha : List Char → List Char) (coll : Collection) (chunks : List Chunk) :
    Collection :=
  if h : chunks.isEmpty then coll
  else
    addChunks sha (coll ++ chunkEntries sha (chunks.take CHROMA_ADD_BATCH_SIZE))
      (chunks.drop CHROMA_ADD_BATCH_SIZE)
termination_by chunks.length
decreasing_by
  have : chunks ≠ [] := by simpa [List.isEmpty_iff] using h
  have hpos : 0 < chunks.length := List.length_pos.mpr this
  simp only [List.length_drop, CHROMA_ADD_BATCH_SIZE]
  omega

theorem addChunks_eq (sha : List Char → List Char) :
    ∀ (fuel : Nat) (chunks : List Chunk) (coll : Collection), chunks.length ≤ fuel →
      addChunks sha coll chunks = coll ++ chunkEntries sha chunks := by
  intro fuel
  induction fuel with
  | zero =>
    intro chunks coll hf
    have : chunks = [] := List.length_eq_zero.mp (by omega)
    subst this
    rw [addChunks]
    simp [chunkEntries]
  | succ fuel ih =>
    intro chunks coll hf
    rw [addChunks]
    by_cases h : chunks.isEmpty
    · rw [dif_pos h]
      have : chunks = [] := List.isEmpty_iff.mp h
      subst this
      simp [chunkEntries]
    · rw [dif_neg h]
      have hne : chunks ≠ [] := by simpa [List.isEmpty_iff] using h
      have hpos : 0 < chunks.length := List.length_pos.mpr hne
      rw [ih (chunks.drop CHROMA_ADD_BATCH_SIZE) _ (by simp [CHROMA_ADD_BATCH_SIZE]; omega)]
      rw [List.append_assoc]
      congr 1
      rw [show chunkEntries sha (chunks.take CHROMA_ADD_BATCH_SIZE) ++
          chunkEntries sha (chunks.drop CHROMA_ADD_BATCH_SIZE) =
          chunkEntries sha (chunks.take CHROMA_ADD_BATCH_SIZE ++
            chunks.drop CHROMA_ADD_BATCH_SIZE) from by simp [chunkEntries]]
      rw [List.take_append_drop]

/-- `IndexBuilder.clear_and_add`: delete the collection (tolerating its
absence), then `add_chunks` into the now-empty collection.  The prior
contents `coll` are discarded entirely. -/
def clearAndAdd (sha : List Char → List Char) (coll : Collection) (chunks : List Chunk) :
    Collection :=
  addChunks sha [] chunks

/-- Collection effect of `run_ingest._save_partial_and_exit` (lines 56–72):
chunk the accumulated articles, embed them, and write via
`builder.clear_and_add(all_chunks, embeddings)`. -/
def savePartialCollection (sha : List Char → List Char) (coll : Collection)
    (articles : List Article) : Collection :=
  clearAndAdd sha coll ((articles.map chunkArticle).flatten)

/-- C2 (counterexample): an entry present before the interrupt save is
gone afterwards — the interrupt path clears the collection first. -/
theorem interrupt_save_cex :
    (("old".data, "olddoc".data) ∈ ([("old".data, "olddoc".data)] : Collection)) ∧
    (("old".data, "olddoc".data) ∉
      savePartialCollection (fun _ => "h".data) [("old".data, "olddoc".data)] [shortArt]) := by
  constructor
  · simp
  · have h : savePartialCollection (fun _ => "h".data) [("old".data, "olddoc".data)] [shortArt] =
        chunkEntries (fun _ => "h".data) (([shortArt].map chunkArticle).flatten) := by
      simp only [savePartialCollection, clearAndAdd]
      rw [addChunks_eq (fun _ => "h".data) (([shortArt].map chunkArticle).flatten).length _ _ le_rfl]
      simp
    rw [h]
    decide

/-- C2 (amended): the interrupt-checkpoint save path performs
clear-then-add just like the normal completion path: the resulting
collection is exactly the entries derived from the accumulated articles'
chunks, independent of anything the collection held before the save. -/
theorem interrupt_save_clears (sha : List Char → List Char) (coll coll' : Collection)
    (articles : List Article) :
    savePartialCollection sha coll articles =
      chunkEntries sha ((articles.map chunkArticle).flatten) ∧
    savePartialCollection sha coll articles = savePartialCollection sha coll' articles := by
  constructor
  · simp only [savePartialCollection, clearAndAdd]
    rw [addChunks_eq sha ((articles.map chunkArticle).flatten).length _ _ le_rfl]
    simp
  · rfl

/-! ### `src/rag/retriever.py` and `src/api.py` -/

/-- One record of the persisted collection as seen by the retriever:
document text plus the metadata written by `IndexBuilder.add_chunks`. -/
structure ChromaRecord where
  document : List Char
  title : List Char
  author : List Char
  sect : List Char
  date : List Char
  source_url : List Char
  deriving Repr, DecidableEq

/-- The vector-store collection as the retriever uses it: its entries,
and for every query embedding the similarity-ranked ordering of all
entries (`query` returns the first `n_results` of that ordering).
`length_rankFor` states that ranking reorders the entries without adding
or dropping any — the interface contract of the vector store. -/
structure ChromaCollection (Emb : Type) where
  entries : List ChromaRecord
  rankFor : Emb → List ChromaRecord
  length_rankFor : ∀ e, (rankFor e).length = entries.length

/-- `collection.count()`. -/
def ChromaCollection.count {Emb : Type} (c : ChromaCollection Emb) : Nat := c.entries.length

/-- `collection.query(query_embeddings=[emb], n_results=n, where=…,
where_document=…)`: filters applied to the ranked entries, then the first
`n` taken. -/
def ChromaCollection.query {Emb : Type} (c : ChromaCollection Emb) (emb : Emb) (nResults : Nat)
    (wh : Option (ChromaRecord → Bool)) (whDoc : Option (ChromaRecord → Bool)) :
    List ChromaRecord :=
  ((c.rankFor emb).filter
    (fun r => (wh.getD (fun _ => true)) r && (whDoc.getD (fun _ => true)) r)).take nResults

/-- Chunk dictionary shaped by `retriever._query_with_embedding`. -/
structure RetrievedChunk where
  text : List Char
  title : List Char
  author : List Char
  sect : List Char
  date : List Char
  source_url : List Char
  deriving Repr, DecidableEq

/-- `retriever._query_with_embedding(collection, emb, n, where,
where_document)`: empty collection short-circuits to `[]`; otherwise
query with `n_results = min(n, count)` and shape the results. -/
def queryWithEmbedding {Emb : Type} (c : ChromaCollection Emb) (emb : Emb) (n : Nat)
    (wh : Option (ChromaRecord → Bool)) (whDoc : Option (ChromaRecord → Bool)) :
    List RetrievedChunk :=
  if c.count = 0 then []
  else
    (c.query emb (min n c.count) wh whDoc).map
      (fun r => ⟨r.document, r.title, r.author, r.sect, r.date, r.source_url⟩)

/-- C9: with no filters, the retriever returns exactly
`min (requested n) (collection size)` results (over-asking is clamped, not
an error), and an empty collection yields the empty list. -/
theorem retrieve_clamp {Emb : Type} (c : ChromaCollection Emb) (emb : Emb) (n : Nat) :
    (queryWithEmbedding c emb n none none).length = min n c.count ∧
    (c.count = 0 → queryWithEmbedding c emb n none none = []) := by
  constructor
  · by_cases h : c.count = 0
    · simp [queryWithEmbedding, h]
    · simp only [queryWithEmbedding, if_neg h, ChromaCollection.query, Option.getD]
      simp only [List.length_map, List.length_take]
      have hfilter : ((c.rankFor emb).filter (fun _ => true && true)) = c.rankFor emb := by
        simp
      rw [hfilter, c.length_rankFor emb]
      simp only [ChromaCollection.count]
      omega
  · intro h
    simp [queryWithEmbedding, h]

def sampleRecord (k : Nat) : ChromaRecord :=
  ⟨natDecimal k, "t".data, "a".data, "s".data, "d".data, "u".data⟩

def threeColl : ChromaCollection Unit :=
  ⟨[sampleRecord 0, sampleRecord 1, sampleRecord 2],
   fun _ => [sampleRecord 0, sampleRecord 1, sampleRecord 2],
   fun _ => rfl⟩

def emptyColl : ChromaCollection Unit := ⟨[], fun _ => [], fun _ => rfl⟩

theorem retrieve_clamp_witness :
    queryWithEmbedding emptyColl () 5 none none = [] ∧
    (queryWithEmbedding threeColl () 999 none none).length = 3 :=
  ⟨(retrieve_clamp emptyColl () 5).2 rfl, by
    have h := (retrieve_clamp threeColl () 999).1
    simpa using h⟩

/-- `api.Source` (response model of `POST /ask`). -/
structure Source where
  title : List Char
  author : List Char
  source_url : List Char
  snippet : List Char
  deriving Repr, DecidableEq

/-- One element of the `sources` list built by the `ask` endpoint
(`api.py` lines 188–196): `snippet = c["text"][:300] + ("..." if
len(c["text"]) > 300 else "")`. -/
def mkSource (c : RetrievedChunk) : Source :=
  { title := c.title
    author := c.author
    source_url := c.source_url
    snippet := c.text.take 300 ++ (if 300 < c.text.length then "...".data else []) }

/-- The full `sources` list of an `/ask` response for retrieved chunks. -/
def askSources (chunks : List RetrievedChunk) : List Source := chunks.map mkSource

/-- A retrieved chunk whose text has 301 characters. -/
def longChunk : RetrievedChunk :=
  ⟨List.replicate 301 'x', "t".data, "a".data, "s".data, "d".data, "u".data⟩

/-- C8 (counterexample): a chunk text of 301 characters produces a
snippet of 303 characters (300 kept plus the `"..."` ellipsis), violating
the stated 300-character bound. -/
theorem snippet_bound_cex :
    ¬ (∀ s ∈ askSources [longChunk], s.snippet.length ≤ 300) := by
  decide

/-- C8 (amended): every snippet in an `/ask` response has length at most
303: at most 300 characters of chunk text plus the three-character
ellipsis appended when the text was truncated. -/
theorem snippet_bound (chunks : List RetrievedChunk) :
    ∀ s ∈ askSources chunks, s.snippet.length ≤ 303 := by
  intro s hs
  simp only [askSources, List.mem_map] at hs
  obtain ⟨c, _, rfl⟩ := hs
  simp only [mkSource, List.length_append, List.length_take]
  by_cases h : 300 < c.text.length
  · rw [if_pos h]
    simp only [List.length]
    omega
  · rw [if_neg h]
    simp only [List.length_nil]
    omega

theorem snippet_bound_witness : (mkSource longChunk).snippet.length ≤ 303 :=
  snippet_bound [longChunk] (mkSource longChunk) (by decide)

/-! ### `src/scraper/sitemap.py` -/

/-- What `fetch_all_urls` observes about one fetched response text:
its Python truthiness (`nonempty`), and the outcome of `ET.fromstring` —
`parsed = none` models a `ParseError` (then `_parse_sitemap_urls` yields
`[]` and `_is_sitemap_index` yields `False`), otherwise the pair of
`_is_sitemap_index` (presence of `<sitemap>` elements) and the `<loc>`
texts collected by `_parse_sitemap_urls`. -/
structure FetchedText where
  nonempty : Bool
  parsed : Option (Bool × List (List Char))
  deriving Repr, DecidableEq

/-- The reachable web, as a finite association list from URL to response;
a missing key models a request failure (`_fetch_xml` returning `None`). -/
abbrev Web := List (List Char × FetchedText)

/-- `_fetch_xml(url, session)` over the modelled web. -/
def webGet (web : Web) (url : List Char) : Option FetchedText :=
  (web.find? (fun p => decide (p.1 = url))).map Prod.snd

/-- Python truthiness of the value `_fetch_xml` returned. -/
def isTruthy : Option FetchedText → Bool
  | some t => t.nonempty
  | none => false

def SITEMAP_PATHS : List (List Char) :=
  ["/wp-sitemap.xml".data, "/wp-sitemap-index.xml".data,
   "/sitemap.xml".data, "/sitemap_index.xml".data]

def SITEMAP_WORKERS : Nat := 10

def INCLUDE_PREFIXES : List (List Char) :=
  ["/article/".data, "/articles/".data, "/essays/".data, "/essay/".data,
   "/blogs/".data, "/blog/".data, "/commentary/".data, "/topics/".data]

def EXCLUDE_PREFIXES : List (List Char) :=
  ["/churches/".data, "/store/".data, "/donate/".data, "/courses/".data,
   "/course/".data, "/auth".data, "/login".data, "/register".data,
   "/page/".data, "/feed/".data, "/tag/".data, "/author/".data, "/?".data]

/-- Python `s.rstrip("/")`. -/
def rstripSlash (s : List Char) : List Char :=
  (s.reverse.dropWhile (fun c => c == '/')).reverse

/-- `urljoin(base_url, path)` for an origin-only base (the caller strips
its trailing slash) and a root-relative well-known path: concatenation. -/
def joinUrl (base path : List Char) : List Char := base ++ path

/-- `_parse_sitemap_urls` on a fetched text. -/
def parseSitemapUrls (t : FetchedText) : List (List Char) :=
  match t.parsed with
  | none => []
  | some (_, locs) => locs

/-- `_is_sitemap_index` on a fetched text. -/
def isSitemapIndex (t : FetchedText) : Bool :=
  match t.parsed with
  | none => false
  | some (isIdx, _) => isIdx

/-- The entry-point loop of `fetch_all_urls` (lines 150–162): try the
well-known paths in order and keep the first whose fetch is truthy. -/
def findEntry (web : Web) (base : List Char) : List (List Char) → Option (List Char × FetchedText)
  | [] => none
  | p :: rest =>
    match webGet web (joinUrl base p) with
    | some t => if t.nonempty then some (joinUrl base p, t) else findEntry web base rest
    | none => findEntry web base rest

/-- Drop everything up to and including the first `"://"`. -/
def dropScheme : List Char → List Char
  | [] => []
  | ':' :: '/' :: '/' :: rest => rest
  | _ :: rest => dropScheme rest

/-- `urlparse(url).path` for the absolute http(s) URLs sitemaps carry:
after the scheme, skip the host up to the first `'/'`, and stop before any
query or fragment. -/
def urlPath (url : List Char) : List Char :=
  ((dropScheme url).dropWhile (fun c => !(c == '/'))).takeWhile
    (fun c => !(c == '?') && !(c == '#'))

/-- Python `s.lower()` (ASCII). -/
def lowerStr (s : List Char) : List Char := s.map Char.toLower

/-- Python `pat in s` (substring containment). -/
def containsSub (pat : List Char) : List Char → Bool
  | [] => pat.isEmpty
  | x :: rest => pat.isPrefixOf (x :: rest) || containsSub pat rest

/-- `_filter_content_urls`, with the `seen` set threaded explicitly. -/
def filterContentAux : List (List Char) → List (List Char) → List (List Char)
  | [], _ => []
  | url :: rest, seen =>
    let path := lowerStr (urlPath url)
    if !(INCLUDE_PREFIXES.any (fun p => p.isPrefixOf path || path == rstripSlash p)) then
      filterContentAux rest seen
    else if EXCLUDE_PREFIXES.any (fun ex => containsSub ex path) then
      filterContentAux rest seen
    else if rstripSlash url ∈ seen then
      filterContentAux rest seen
    else
      url :: filterContentAux rest (rstripSlash url :: seen)

def filterContentUrls (urls : List (List Char)) : List (List Char) :=
  filterContentAux urls []

/-- Mutable state of the traversal loop of `fetch_all_urls`
(lines 173–215): pending child URLs, the fetch counter, the de-duplication
set, the collected leaf URLs, and — for stating the fetch-budget claim —
the URLs of the fetch operations submitted so far. -/
structure TravState where
  toFetch : List (List Char)
  totalFetched : Nat
  processed : List (List Char)
  allUrls : List (List Char)
  trace : List (List Char)

/-- Number of web documents whose URL has not been processed yet (the
termination measure of the traversal). -/
def unproc (web : Web) (pr : List (List Char)) : Nat :=
  ((web.map Prod.fst).filter (fun k => decide (k ∉ pr))).length

/-- The body of the `as_completed` consumer (lines 200–215) for one
completed fetch: skip already-processed URLs, count the fetch, and either
record leaf URLs or enqueue child sitemaps up to the remaining budget. -/
def stepUrl (web : Web) (maxFiles : Option Nat) (st : TravState) (url : List Char) : TravState :=
  if url ∈ st.processed then st
  else
    let st1 : TravState :=
      { st with processed := url :: st.processed, totalFetched := st.totalFetched + 1 }
    match webGet web url with
    | none => st1
    | some xml =>
      if isSitemapIndex xml then
        match maxFiles with
        | none => { st1 with toFetch := st1.toFetch ++ parseSitemapUrls xml }
        | some m =>
          if 0 < m - st1.totalFetched - st1.toFetch.length then
            { st1 with toFetch := st1.toFetch ++
                (parseSitemapUrls xml).take (m - st1.totalFetched - st1.toFetch.length) }
          else st1
      else { st1 with allUrls := st1.allUrls ++ parseSitemapUrls xml }

/-- The `as_completed` loop over one batch of submitted fetches;
concurrency-wise the completion order is arbitrary, modelled here as
submission order (every property proved about the traversal is
order-independent). -/
def processBatch (web : Web) (maxFiles : Option Nat) (batch : List (List Char))
    (st : TravState) : TravState :=
  batch.foldl (stepUrl web maxFiles) st

theorem filter_notmem_cons_le (l pr : List (List Char)) (u : List Char) :
    (l.filter (fun k => decide (k ∉ u :: pr))).length ≤
      (l.filter (fun k => decide (k ∉ pr))).length := by
  induction l with
  | nil => simp
  | cons x xs ih =>
    simp only [List.filter_cons]
    by_cases hx : x ∉ u :: pr
    · have hx' : x ∉ pr := fun hmem => hx (List.mem_cons_of_mem u hmem)
      have h := ih
      simp [hx, hx'] at h ⊢
      omega
    · by_cases hx' : x ∉ pr
      · have hxu : x = u := by
          rcases List.mem_cons.mp (not_not.mp hx) with h | h
          · exact h
          · exact absurd h hx'
        subst hxu
        have h := ih
        simp [hx'] at h ⊢
        omega
      · have h := ih
        simp [hx, hx'] at h ⊢
        omega

theorem unproc_cons_le (web : Web) (pr : List (List Char)) (u : List Char) :
    unproc web (u :: pr) ≤ unproc web pr :=
  filter_notmem_cons_le (web.map Prod.fst) pr u

theorem filter_notmem_cons_lt (l pr : List (List Char)) (u : List Char)
    (hul : u ∈ l) (hup : u ∉ pr) :
    (l.filter (fun k => decide (k ∉ u :: pr))).length <
      (l.filter (fun k => decide (k ∉ pr))).length := by
  induction l with
  | nil => cases hul
  | cons x xs ih =>
    simp only [List.filter_cons]
    by_cases hxu : x = u
    · subst hxu
      have h1 : ¬ (x ∉ x :: pr) := fun hc => hc (List.mem_cons_self x pr)
      have h := filter_notmem_cons_le xs pr x
      simp [h1, hup] at h ⊢
      omega
    · have hmem : u ∈ xs := by
        rcases List.mem_cons.mp hul with h | h
        · exact absurd h.symm hxu
        · exact h
      have hiff : (x ∉ u :: pr) ↔ (x ∉ pr) := by
        constructor
        · intro hc hmem2; exact hc (List.mem_cons_of_mem u hmem2)
        · intro hc hmem2
          rcases List.mem_cons.mp hmem2 with h | h
          · exact hxu h
          · exact hc h
      by_cases hx : x ∉ pr
      · have hx2 : x ∉ u :: pr := hiff.mpr hx
        have h := ih hmem
        simp [hx, hx2] at h ⊢
        omega
      · have hx2 : ¬ (x ∉ u :: pr) := fun hc => hx (hiff.mp hc)
        have h := ih hmem
        simp [hx, hx2] at h ⊢
        omega

theorem unproc_cons_lt (web : Web) (pr : List (List Char)) (u : List Char)
    (hu : u ∈ web.map Prod.fst) (hup : u ∉ pr) :
    unproc web (u :: pr) < unproc web pr :=
  filter_notmem_cons_lt (web.map Prod.fst) pr u hu hup

theorem webGet_mem (web : Web) (url : List Char) (t : FetchedText)
    (h : webGet web url = some t) : url ∈ web.map Prod.fst := by
  simp only [webGet, Option.map_eq_some'] at h
  obtain ⟨p, hp, _⟩ := h
  have hmem := List.mem_of_find?_eq_some hp
  have heq := List.find?_some hp
  have : p.1 = url := of_decide_eq_true heq
  subst this
  exact List.mem_map_of_mem Prod.fst hmem

/-- One step never increases the number of unprocessed web documents,
and whenever it modifies `toFetch` it has strictly decreased that
number (the enqueue happens only for a newly processed web document). -/
theorem stepUrl_unproc (web : Web) (maxFiles : Option Nat) (st : TravState) (url : List Char) :
    unproc web (stepUrl web maxFiles st url).processed ≤ unproc web st.processed ∧
    ((stepUrl web maxFiles st url).toFetch = st.toFetch ∨
      unproc web (stepUrl web maxFiles st url).processed < unproc web st.processed) := by
  by_cases hmem : url ∈ st.processed
  · simp only [stepUrl]
    rw [if_pos hmem]
    exact ⟨le_rfl, Or.inl rfl⟩
  · rcases hweb : webGet web url with _ | xml
    · simp only [stepUrl, hweb]
      rw [if_neg hmem]
      exact ⟨unproc_cons_le web st.processed url, Or.inl rfl⟩
    · have hkey := webGet_mem web url xml hweb
      have hlt := unproc_cons_lt web st.processed url hkey hmem
      by_cases hidx : isSitemapIndex xml = true
      · rcases maxFiles with _ | m
        · simp only [stepUrl, hweb]
          rw [if_neg hmem, if_pos hidx]
          exact ⟨le_of_lt hlt, Or.inr hlt⟩
        · simp only [stepUrl, hweb]
          rw [if_neg hmem, if_pos hidx]
          by_cases hrem : 0 < m - (st.totalFetched + 1) - st.toFetch.length
          · rw [if_pos hrem]
            exact ⟨le_of_lt hlt, Or.inr hlt⟩
          · rw [if_neg hrem]
            exact ⟨le_of_lt hlt, Or.inr hlt⟩
      · simp only [stepUrl, hweb]
        rw [if_neg hmem, if_neg hidx]
        exact ⟨unproc_cons_le web st.processed url, Or.inl rfl⟩

theorem processBatch_unproc (web : Web) (maxFiles : Option Nat) :
    ∀ (batch : List (List Char)) (st : TravState),
      unproc web (processBatch web maxFiles batch st).processed ≤ unproc web st.processed ∧
      ((processBatch web maxFiles batch st).toFetch = st.toFetch ∨
        unproc web (processBatch web maxFiles batch st).processed < unproc web st.processed) := by
  intro batch
  induction batch with
  | nil => intro st; exact ⟨le_rfl, Or.inl rfl⟩
  | cons url rest ih =>
    intro st
    simp only [processBatch, List.foldl_cons]
    have hstep := stepUrl_unproc web maxFiles st url
    have hrec := ih (stepUrl web maxFiles st url)
    simp only [processBatch] at hrec
    constructor
    · exact le_trans hrec.1 hstep.1
    · rcases hrec.2 with h1 | h1
      · rcases hstep.2 with h2 | h2
        · exact Or.inl (h1.trans h2)
        · exact Or.inr (lt_of_le_of_lt hrec.1 h2)
      · exact Or.inr (lt_of_lt_of_le h1 hstep.1)

/-- The break condition of the traversal loop (line 181):
`max_sitemap_files is not None and total_fetched >= max_sitemap_files`. -/
def travStop (maxFiles : Option Nat) (total : Nat) : Bool :=
  match maxFiles with
  | some m => decide (m ≤ total)
  | none => false

/-- `batch_size` (lines 186–190): `min(SITEMAP_WORKERS * 2, len(to_fetch),
(max_sitemap_files - total_fetched) if max_sitemap_files else
len(to_fetch))` — note the Python truthiness: a budget of `0` selects the
`len(to_fetch)` branch. -/
def batchSizeOf (maxFiles : Option Nat) (total lenToFetch : Nat) : Nat :=
  min (min (SITEMAP_WORKERS * 2) lenToFetch)
    (match maxFiles with
     | some m => if m = 0 then lenToFetch else m - total
     | none => lenToFetch)

theorem batchSize_pos (maxFiles : Option Nat) (total len : Nat)
    (hlen : 0 < len) (hstop : travStop maxFiles total = false) :
    0 < batchSizeOf maxFiles total len := by
  cases maxFiles with
  | none =>
    simp [batchSizeOf, SITEMAP_WORKERS]
    omega
  | some m =>
    simp only [travStop, decide_eq_false_iff_not, not_le] at hstop
    by_cases hm : m = 0
    · simp [batchSizeOf, hm, SITEMAP_WORKERS]
      omega
    · simp [batchSizeOf, hm, SITEMAP_WORKERS]
      omega

/-- The `while to_fetch:` loop of `fetch_all_urls` (lines 180–215):
take a batch, record its submission, and consume the completed fetches. -/
def travLoop (web : Web) (maxFiles : Option Nat) (st : TravState) : TravState :=
  if h1 : st.toFetch.isEmpty then st
  else if h2 : travStop maxFiles st.totalFetched then st
  else
    travLoop web maxFiles
      (processBatch web maxFiles
        (st.toFetch.take (batchSizeOf maxFiles st.totalFetched st.toFetch.length))
        { st with
          toFetch := st.toFetch.drop (batchSizeOf maxFiles st.totalFetched st.toFetch.length),
          trace := st.trace ++
            st.toFetch.take (batchSizeOf maxFiles st.totalFetched st.toFetch.length) })
termination_by (unproc web st.processed, st.toFetch.length)
decreasing_by
  have hlen : 0 < st.toFetch.length := by
    rcases hf : st.toFetch with _ | ⟨x, xs⟩
    · rw [hf] at h1; simp at h1
    · simp [hf]
  have hbs := batchSize_pos maxFiles st.totalFetched st.toFetch.length hlen
    (by simpa using h2)
  have hpb := processBatch_unproc web maxFiles
    (st.toFetch.take (batchSizeOf maxFiles st.totalFetched st.toFetch.length))
    { st with
      toFetch := st.toFetch.drop (batchSizeOf maxFiles st.totalFetched st.toFetch.length),
      trace := st.trace ++
        st.toFetch.take (batchSizeOf maxFiles st.totalFetched st.toFetch.length) }
  rcases hpb.2 with heq | hlt
  · rcases lt_or_eq_of_le hpb.1 with hlt2 | heq2
    · exact Prod.Lex.left _ _ hlt2
    · rw [heq2]
      apply Prod.Lex.right
      rw [heq]
      simp only [List.length_drop]
      omega
  · exact Prod.Lex.left _ _ hlt

/-- `fetch_all_urls(base_url, max_sitemap_files=…)`, instrumented: the
first component is the returned URL list, the second the list of sitemap
URLs fetched during the traversal (the root entry point followed by every
submitted child fetch, in submission order). -/
def fetchAllUrlsTrace (web : Web) (base0 : List Char) (maxFiles : Option Nat) :
    List (List Char) × List (List Char) :=
  let base := rstripSlash base0
  match findEntry web base SITEMAP_PATHS with
  | none => ([], [])
  | some (sitemapUrl, xml) =>
    if !isSitemapIndex xml then (filterContentUrls (parseSitemapUrls xml), [sitemapUrl])
    else
      let toFetch : List (List Char) :=
        match maxFiles with
        | none => parseSitemapUrls xml
        | some m => (parseSitemapUrls xml).take (max 1 (m - 1))
      let final := travLoop web maxFiles ⟨toFetch, 1, [], [], []⟩
      (filterContentUrls final.allUrls, sitemapUrl :: final.trace)

/-- `fetch_all_urls` proper: the filtered content-URL list. -/
def fetchAllUrls (web : Web) (base0 : List Char) (maxFiles : Option Nat) :
    List (List Char) :=
  (fetchAllUrlsTrace web base0 maxFiles).1


theorem batchSize_le_budget (m total len : Nat) (hm : m ≠ 0) :
    batchSizeOf (some m) total len ≤ m - total := by
  have hb : batchSizeOf (some m) total len =
      min (min (SITEMAP_WORKERS * 2) len) (m - total) := by
    simp [batchSizeOf, hm]
  rw [hb]
  exact min_le_right _ _

/-- Bookkeeping facts about one step: the trace is untouched, the URL is
processed afterwards, processing is monotone, and the fetch counter moves
in lockstep with the processed set. -/
theorem stepUrl_fields (web : Web) (maxFiles : Option Nat) (st : TravState) (url : List Char) :
    (stepUrl web maxFiles st url).trace = st.trace ∧
    url ∈ (stepUrl web maxFiles st url).processed ∧
    (∀ v ∈ st.processed, v ∈ (stepUrl web maxFiles st url).processed) ∧
    ((stepUrl web maxFiles st url).processed = st.processed ∧
       (stepUrl web maxFiles st url).totalFetched = st.totalFetched ∨
     (stepUrl web maxFiles st url).processed = url :: st.processed ∧
       (stepUrl web maxFiles st url).totalFetched = st.totalFetched + 1) := by
  by_cases hmem : url ∈ st.processed
  · simp only [stepUrl]
    rw [if_pos hmem]
    exact ⟨rfl, hmem, fun v hv => hv, Or.inl ⟨rfl, rfl⟩⟩
  · rcases hweb : webGet web url with _ | xml
    · simp only [stepUrl, hweb]
      rw [if_neg hmem]
      exact ⟨rfl, List.mem_cons_self url st.processed,
        fun v hv => List.mem_cons_of_mem url hv, Or.inr ⟨rfl, rfl⟩⟩
    · by_cases hidx : isSitemapIndex xml = true
      · rcases maxFiles with _ | m
        · simp only [stepUrl, hweb]
          rw [if_neg hmem, if_pos hidx]
          exact ⟨rfl, List.mem_cons_self url st.processed,
            fun v hv => List.mem_cons_of_mem url hv, Or.inr ⟨rfl, rfl⟩⟩
        · simp only [stepUrl, hweb]
          rw [if_neg hmem, if_pos hidx]
          by_cases hrem : 0 < m - (st.totalFetched + 1) - st.toFetch.length
          · rw [if_pos hrem]
            exact ⟨rfl, List.mem_cons_self url st.processed,
              fun v hv => List.mem_cons_of_mem url hv, Or.inr ⟨rfl, rfl⟩⟩
          · rw [if_neg hrem]
            exact ⟨rfl, List.mem_cons_self url st.processed,
              fun v hv => List.mem_cons_of_mem url hv, Or.inr ⟨rfl, rfl⟩⟩
      · simp only [stepUrl, hweb]
        rw [if_neg hmem, if_neg hidx]
        exact ⟨rfl, List.mem_cons_self url st.processed,
          fun v hv => List.mem_cons_of_mem url hv, Or.inr ⟨rfl, rfl⟩⟩

/-- The same bookkeeping lifted over a whole batch. -/
theorem processBatch_fields (web : Web) (maxFiles : Option Nat) :
    ∀ (batch : List (List Char)) (st : TravState),
      (processBatch web maxFiles batch st).trace = st.trace ∧
      (∀ v ∈ st.processed, v ∈ (processBatch web maxFiles batch st).processed) ∧
      (∀ u ∈ batch, u ∈ (processBatch web maxFiles batch st).processed) ∧
      (st.totalFetched = 1 + st.processed.length →
        (processBatch web maxFiles batch st).totalFetched =
          1 + (processBatch web maxFiles batch st).processed.length) ∧
      (processBatch web maxFiles batch st).totalFetched ≤ st.totalFetched + batch.length := by
  intro batch
  induction batch with
  | nil =>
    intro st
    exact ⟨rfl, fun v hv => hv, by simp, fun h => h, by simp [processBatch]⟩
  | cons url rest ih =>
    intro st
    simp only [processBatch, List.foldl_cons]
    have hstep := stepUrl_fields web maxFiles st url
    have hrec := ih (stepUrl web maxFiles st url)
    simp only [processBatch] at hrec
    refine ⟨hrec.1.trans hstep.1, ?_, ?_, ?_, ?_⟩
    · intro v hv
      exact hrec.2.1 v (hstep.2.2.1 v hv)
    · intro u hu
      rcases List.mem_cons.mp hu with h | h
      · subst h
        exact hrec.2.1 u hstep.2.1
      · exact hrec.2.2.1 u h
    · intro hcount
      apply hrec.2.2.2.1
      rcases hstep.2.2.2 with ⟨hp, ht⟩ | ⟨hp, ht⟩
      · rw [hp, ht]; exact hcount
      · rw [hp, ht, hcount]
        simp only [List.length_cons]
        omega
    · have h1 := hrec.2.2.2.2
      have h2 : (stepUrl web maxFiles st url).totalFetched ≤ st.totalFetched + 1 := by
        rcases hstep.2.2.2 with ⟨_, ht⟩ | ⟨_, ht⟩ <;> omega
      simp only [List.length_cons]
      omega

/-- The state invariant of the budgeted traversal: the fetch counter is
one more than the number of processed URLs, stays within the budget, and
every URL ever submitted for fetching has been processed. -/
def travInv (m : Nat) (st : TravState) : Prop :=
  st.totalFetched = 1 + st.processed.length ∧
  st.totalFetched ≤ m ∧
  (∀ u ∈ st.trace, u ∈ st.processed)

theorem travLoop_inv (web : Web) (m : Nat) :
    ∀ st : TravState, travInv m st → travInv m (travLoop web (some m) st) := by
  intro st
  induction st using travLoop.induct web (some m) with
  | case1 st h1 =>
    intro hinv
    rw [travLoop, dif_pos h1]
    exact hinv
  | case2 st h1 h2 =>
    intro hinv
    rw [travLoop, dif_neg h1, dif_pos h2]
    exact hinv
  | case3 st h1 h2 ih =>
    intro hinv
    rw [travLoop, dif_neg h1, dif_neg h2]
    apply ih
    obtain ⟨hcount, hbudget, htrace⟩ := hinv
    have hm0 : m ≠ 0 := by
      simp only [travStop, decide_eq_true_eq] at h2
      omega
    set bs := batchSizeOf (some m) st.totalFetched st.toFetch.length with hbs
    set mid : TravState :=
      { st with toFetch := st.toFetch.drop bs, trace := st.trace ++ st.toFetch.take bs }
      with hmid
    have hpb := processBatch_fields web (some m) (st.toFetch.take bs) mid
    have hmidp : mid.processed = st.processed := rfl
    have hmidt : mid.totalFetched = st.totalFetched := rfl
    refine ⟨?_, ?_, ?_⟩
    · apply hpb.2.2.2.1
      rw [hmidp, hmidt]
      exact hcount
    · have hlen : (st.toFetch.take bs).length ≤ bs := by
        simp [List.length_take]
      have hble : bs ≤ m - st.totalFetched :=
        batchSize_le_budget m st.totalFetched st.toFetch.length hm0
      have hstop : st.totalFetched < m := by
        simp only [travStop, decide_eq_true_eq] at h2
        omega
      have := hpb.2.2.2.2
      rw [hmidt] at this
      omega
    · intro u hu
      have htr : (processBatch web (some m) (st.toFetch.take bs) mid).trace =
          st.trace ++ st.toFetch.take bs := hpb.1
      rw [htr] at hu
      rcases List.mem_append.mp hu with h | h
      · exact hpb.2.1 u (by rw [hmidp]; exact htrace u h)
      · exact hpb.2.2.1 u h

/-- C3 (amended): for any positive fetch budget `m`, the traversal
fetches at most `m` distinct sitemap documents in total, counting the
root entry-point document; children beyond the budget are dropped and
the traversal still returns (it is a total function). -/
theorem sitemap_budget (web : Web) (base : List Char) (m : Nat) (hm : 1 ≤ m) :
    (fetchAllUrlsTrace web base (some m)).2.dedup.length ≤ m := by
  simp only [fetchAllUrlsTrace]
  rcases hentry : findEntry web (rstripSlash base) SITEMAP_PATHS with _ | ⟨sitemapUrl, xml⟩
  · simp
  · simp only []
    by_cases hidx : isSitemapIndex xml = true
    · simp only [hidx, Bool.not_true, Bool.false_eq_true, if_false]
      have hinv := travLoop_inv web m
        ⟨(parseSitemapUrls xml).take (max 1 (m - 1)), 1, [], [], []⟩
        ⟨rfl, hm, by simp⟩
      obtain ⟨hcount, hle, htr⟩ := hinv
      set final := travLoop web (some m)
        ⟨(parseSitemapUrls xml).take (max 1 (m - 1)), 1, [], [], []⟩ with hfinal
      have h1 : final.trace.dedup.length ≤ final.processed.length := by
        apply List.Subperm.length_le
        apply List.Nodup.subperm (List.nodup_dedup _)
        intro u hu
        exact htr u (List.dedup_subset _ hu)
      by_cases hmem : sitemapUrl ∈ final.trace
      · rw [List.dedup_cons_of_mem hmem]
        omega
      · rw [List.dedup_cons_of_not_mem hmem]
        simp only [List.length_cons]
        omega
    · simp only [hidx]
      simp [hm]


def budgetWeb : Web :=
  [("https://x/wp-sitemap.xml".data,
    ⟨true, some (true, ["https://x/s1.xml".data, "https://x/s2.xml".data])⟩),
   ("https://x/s1.xml".data, ⟨true, some (false, ["https://x/article/a".data])⟩),
   ("https://x/s2.xml".data, ⟨true, some (false, ["https://x/article/b".data])⟩)]

theorem sitemap_budget_witness :
    (fetchAllUrlsTrace budgetWeb "https://x".data (some 2)).2.dedup.length ≤ 2 :=
  sitemap_budget budgetWeb "https://x".data 2 (by norm_num)

def rootOnlyWeb : Web :=
  [("https://x/wp-sitemap.xml".data, ⟨true, some (false, ["https://x/article/a".data])⟩)]

/-- C3 (counterexample): with a budget of `0` sitemap files the code
still fetches the root document — the claim "at most that many documents,
counting the root" fails for the budget `0`. -/
theorem sitemap_budget_cex :
    ¬ ((fetchAllUrlsTrace rootOnlyWeb "https://x".data (some 0)).2.length ≤ 0) := by
  decide

theorem findEntry_none (web : Web) (base : List Char) :
    ∀ paths, (∀ p ∈ paths, isTruthy (webGet web (joinUrl base p)) = false) →
      findEntry web base paths = none := by
  intro paths
  induction paths with
  | nil => intro _; rfl
  | cons p rest ih =>
    intro h
    rcases hw : webGet web (joinUrl base p) with _ | t
    · simp only [findEntry, hw]
      exact ih (fun q hq => h q (List.mem_cons_of_mem p hq))
    · have hfalse := h p (List.mem_cons_self p rest)
      rw [hw] at hfalse
      simp only [isTruthy] at hfalse
      simp only [findEntry, hw, hfalse, Bool.false_eq_true, if_false]
      exact ih (fun q hq => h q (List.mem_cons_of_mem p hq))

theorem findEntry_first (web : Web) (base : List Char) :
    ∀ (l₁ l₂ : List (List Char)) (p : List Char) (t : FetchedText),
      (∀ q ∈ l₁, isTruthy (webGet web (joinUrl base q)) = false) →
      webGet web (joinUrl base p) = some t → t.nonempty = true →
      findEntry web base (l₁ ++ p :: l₂) = some (joinUrl base p, t) := by
  intro l₁
  induction l₁ with
  | nil =>
    intro l₂ p t _ hw ht
    simp only [List.nil_append, findEntry, hw, ht, if_true]
  | cons q rest ih =>
    intro l₂ p t h hw ht
    rcases hwq : webGet web (joinUrl base q) with _ | tq
    · simp only [List.cons_append, findEntry, hwq]
      exact ih l₂ p t (fun r hr => h r (List.mem_cons_of_mem q hr)) hw ht
    · have hfalse := h q (List.mem_cons_self q rest)
      rw [hwq] at hfalse
      simp only [isTruthy] at hfalse
      simp only [List.cons_append, findEntry, hwq, hfalse, Bool.false_eq_true, if_false]
      exact ih l₂ p t (fun r hr => h r (List.mem_cons_of_mem q hr)) hw ht

/-- C4 (amended): the entry point is the first well-known path whose
fetch returns a non-empty document, whether or not it is parseable XML —
no later path is consulted; if no path yields a non-empty document, or if
the chosen entry document does not parse as XML, the result is the empty
URL list. -/
theorem sitemap_entry (web : Web) (base : List Char) (maxFiles : Option Nat) :
    (∀ (l₁ l₂ : List (List Char)) (p : List Char) (t : FetchedText),
        SITEMAP_PATHS = l₁ ++ p :: l₂ →
        (∀ q ∈ l₁, isTruthy (webGet web (joinUrl (rstripSlash base) q)) = false) →
        webGet web (joinUrl (rstripSlash base) p) = some t → t.nonempty = true →
        findEntry web (rstripSlash base) SITEMAP_PATHS =
          some (joinUrl (rstripSlash base) p, t)) ∧
    ((∀ q ∈ SITEMAP_PATHS, isTruthy (webGet web (joinUrl (rstripSlash base) q)) = false) →
        fetchAllUrls web base maxFiles = []) ∧
    (∀ url t, findEntry web (rstripSlash base) SITEMAP_PATHS = some (url, t) →
        t.parsed = none → fetchAllUrls web base maxFiles = []) := by
  refine ⟨?_, ?_, ?_⟩
  · intro l₁ l₂ p t hsplit h hw ht
    rw [hsplit]
    exact findEntry_first web (rstripSlash base) l₁ l₂ p t h hw ht
  · intro h
    have hnone := findEntry_none web (rstripSlash base) SITEMAP_PATHS h
    simp only [fetchAllUrls, fetchAllUrlsTrace, hnone]
  · intro url t hentry hparse
    have hidx : isSitemapIndex t = false := by
      simp [isSitemapIndex, hparse]
    have hurls : parseSitemapUrls t = [] := by
      simp [parseSitemapUrls, hparse]
    simp only [fetchAllUrls, fetchAllUrlsTrace, hentry, hidx, hurls]
    rfl

theorem sitemap_entry_witness :
    fetchAllUrls ([] : Web) "https://x".data none = [] :=
  (sitemap_entry [] "https://x".data none).2.1 (by decide)

def unparseableFirstWeb : Web :=
  [("https://x/wp-sitemap.xml".data, ⟨true, none⟩),
   ("https://x/sitemap.xml".data, ⟨true, some (false, ["https://x/article/a".data])⟩)]

def parseableOnlyWeb : Web :=
  [("https://x/sitemap.xml".data, ⟨true, some (false, ["https://x/article/a".data])⟩)]

/-- C4 (counterexample): with a non-empty but unparseable document at the
first well-known path, the code stops there and returns `[]`, even though
the first *parseable* path (the same one that alone yields an article
URL) comes later — so "the first path whose fetched document is parseable
XML becomes the entry point" is false. -/
theorem sitemap_entry_cex :
    fetchAllUrls unparseableFirstWeb "https://x".data none = [] ∧
    fetchAllUrls parseableOnlyWeb "https://x".data none =
      ["https://x/article/a".data] := by
  constructor
  · decide
  · decide


/-! ### `src/scraper/parser.py` -/

/-- The JSON-LD Article object as `parse_article` consumes it:
`ld.get("headline")`, `ld.get("datePublished")` (absent keys are `none`),
and the result of `_extract_author_from_json_ld(ld)` (a string, possibly
empty). -/
structure JsonLd where
  headline : Option (List Char)
  datePublished : Option (List Char)
  authorText : List Char
  deriving Repr, DecidableEq

/-- What `parse_article` observes of the parsed HTML document: the result
of each extraction primitive it calls.  `metaContent p` is
`_get_meta_content(soup, p)`; `selOneText s` is the stripped text of
`soup.select_one(s)` for the author selectors; `breadcrumbSecondLast` is
the text of `links[-2]` when a breadcrumb nav with at least two links
exists; `bodyCandidates s` is, per body selector, the whitespace-
normalised text after removing script/style/nav subtrees;
`articleRawText` is `_strip_html(str(soup.find("article")))` without that
removal, used only by the body fallback. -/
structure Soup where
  metaContent : List Char → Option (List Char)
  jsonLd : Option JsonLd
  h1Text : Option (List Char)
  titleText : Option (List Char)
  selOneText : List Char → Option (List Char)
  breadcrumbSecondLast : Option (List Char)
  bodyCandidates : List Char → Option (List Char)
  articleRawText : Option (List Char)

/-- A Python `a or b or … or ""` chain over optional strings: the first
truthy (present and non-empty) value, else `""`. -/
def firstTruthy : List (Option (List Char)) → List Char
  | [] => []
  | none :: rest => firstTruthy rest
  | some s :: rest => if s.isEmpty then firstTruthy rest else s

/-- The author selector loop (lines 119–123): the text of the first
selector that matches at all (the loop breaks even on empty text). -/
def firstPresent (f : List Char → Option (List Char)) : List (List Char) → List Char
  | [] => []
  | sel :: rest =>
    match f sel with
    | some t => t
    | none => firstPresent f rest

def AUTHOR_SELECTORS : List (List Char) :=
  [".author".data, ".byline".data, "[rel=author]".data, ".post-author".data]

def BODY_SELECTORS : List (List Char) :=
  ["article".data, ".post-content".data, ".entry-content".data,
   ".article-body".data, "[class*=content]".data, "main".data]

/-- Python `s.strip("/")`. -/
def stripSlashes (s : List Char) : List Char :=
  ((s.dropWhile (fun c => c == '/')).reverse.dropWhile (fun c => c == '/')).reverse

/-- Python `s.split("/")`. -/
def splitSlash : List Char → List (List Char)
  | [] => [[]]
  | '/' :: rest => [] :: splitSlash rest
  | c :: rest =>
    match splitSlash rest with
    | [] => [[c]]
    | s :: ss => (c :: s) :: ss

/-- Python `s.isdigit()` (ASCII digits). -/
def pyIsDigit (s : List Char) : Bool := !s.isEmpty && s.all (fun c => c.isDigit)

/-- Python `s.title()` (ASCII): uppercase a letter that follows a
non-letter, lowercase the rest. -/
def pyTitleAux : Bool → List Char → List Char
  | _, [] => []
  | prev, c :: rest =>
    (if c.isAlpha then (if prev then c.toLower else c.toUpper) else c) ::
      pyTitleAux c.isAlpha rest

def pyTitle (s : List Char) : List Char := pyTitleAux false s

/-- `parser._extract_section_from_url`. -/
def extractSectionFromUrl (url : List Char) : List Char :=
  let parts := (splitSlash (stripSlashes (urlPath url))).filter
    (fun p => !p.isEmpty && !(p = "article".data) && !pyIsDigit p)
  match parts with
  | [] => []
  | p :: _ => pyTitle (p.map (fun c => if c = '-' then ' ' else c))

/-- The body selector loop (lines 148–157): each matching selector
overwrites `body`; the first whose text exceeds 200 characters stops the
loop. -/
def computeBodyLoop (f : List Char → Option (List Char)) :
    List (List Char) → List Char → List Char
  | [], acc => acc
  | sel :: rest, acc =>
    match f sel with
    | none => computeBodyLoop f rest acc
    | some t => if 200 < t.length then t else computeBodyLoop f rest t

/-- The final body text of `parse_article` (selector loop plus the bare
`<article>` fallback of lines 159–160). -/
def computeBody (soup : Soup) : List Char :=
  let body := computeBodyLoop soup.bodyCandidates BODY_SELECTORS []
  if body.isEmpty then
    match soup.articleRawText with
    | some t => t
    | none => body
  else body

/-- The title fallback chain (lines 104–110). -/
def titleOf (soup : Soup) : List Char :=
  firstTruthy [soup.metaContent "og:title".data,
    soup.jsonLd.bind JsonLd.headline, soup.h1Text, soup.titleText]

/-- The author fallback chain (lines 113–123). -/
def authorOf (soup : Soup) : List Char :=
  let author0 := firstTruthy [soup.metaContent "article:author".data,
    soup.jsonLd.map JsonLd.authorText]
  if author0.isEmpty then firstPresent soup.selOneText AUTHOR_SELECTORS else author0

/-- The section fallback chain (lines 126–136). -/
def sectOf (soup : Soup) (url : List Char) : List Char :=
  let sect0 := firstTruthy [soup.metaContent "article:section".data,
    some (extractSectionFromUrl url)]
  if sect0.isEmpty then
    match soup.breadcrumbSecondLast with
    | some t => t
    | none => sect0
  else sect0

/-- The date chain with ISO truncation (lines 139–145). -/
def dateOf (soup : Soup) : List Char :=
  let date0 := firstTruthy [soup.metaContent "article:published_time".data,
    soup.jsonLd.bind JsonLd.datePublished]
  if 10 < date0.length then date0.take 10 else date0

/-- `parser.parse_article(html, url)` over the observed soup. -/
def parseArticle (soup : Soup) (url : List Char) : Option Article :=
  let body := computeBody soup
  if body.length < 100 then none
  else
    some ⟨url,
      (if (titleOf soup).isEmpty then "Untitled".data else titleOf soup),
      (if (authorOf soup).isEmpty then "Unknown".data else authorOf soup),
      (if (sectOf soup url).isEmpty then "General".data else sectOf soup url),
      dateOf soup,
      body⟩

/-- C6: `parse_article` returns no article exactly when the extracted
body text is absent or shorter than 100 characters; in a returned
article, a title/author/section whose whole fallback chain came up empty
is the fixed default ("Untitled"/"Unknown"/"General"), a missing date is
the empty string, and none of those missing fields affects rejection. -/
theorem parse_article_rejection (soup : Soup) (url : List Char) :
    (parseArticle soup url = none ↔ (computeBody soup).length < 100) ∧
    (∀ a, parseArticle soup url = some a →
      a.content = computeBody soup ∧
      (titleOf soup = [] → a.title = "Untitled".data) ∧
      (authorOf soup = [] → a.author = "Unknown".data) ∧
      (sectOf soup url = [] → a.sect = "General".data) ∧
      (dateOf soup = [] → a.date = [])) := by
  constructor
  · constructor
    · intro h
      by_cases hlen : (computeBody soup).length < 100
      · exact hlen
      · simp only [parseArticle, if_neg hlen] at h
        cases h
    · intro hlen
      simp only [parseArticle, if_pos hlen]
  · intro a ha
    by_cases hlen : (computeBody soup).length < 100
    · simp only [parseArticle, if_pos hlen] at ha
      cases ha
    · simp only [parseArticle, if_neg hlen, Option.some.injEq] at ha
      subst ha
      refine ⟨rfl, ?_, ?_, ?_, ?_⟩
      · intro h
        simp [h]
      · intro h
        simp [h]
      · intro h
        simp [h]
      · intro h
        simp [h]

/-- A page with no metadata at all and a 250-character `main` body. -/
def bareSoup : Soup :=
  { metaContent := fun _ => none
    jsonLd := none
    h1Text := none
    titleText := none
    selOneText := fun _ => none
    breadcrumbSecondLast := none
    bodyCandidates := fun sel => if sel = "main".data then some (List.replicate 250 'b') else none
    articleRawText := none }

theorem parse_article_rejection_witness :
    (parseArticle bareSoup "https://x/article/123".data ≠ none) ∧
    (∀ a, parseArticle bareSoup "https://x/article/123".data = some a →
      a.title = "Untitled".data ∧ a.author = "Unknown".data ∧
      a.sect = "General".data ∧ a.date = []) := by
  have h := parse_article_rejection bareSoup "https://x/article/123".data
  constructor
  · intro hn
    exact absurd (h.1.mp hn) (by decide)
  · intro a ha
    have hfields := h.2 a ha
    exact ⟨hfields.2.1 (by decide), hfields.2.2.1 (by decide),
      hfields.2.2.2.1 (by decide), hfields.2.2.2.2 (by decide)⟩

end TGC
